import Mathlib

/-!
# A verification model of the cronclaw tick engine

Shallow embedding of the core of the `cronclaw` pipeline orchestrator
(sources: `src/pipeline.rs`, `src/state.rs`, `src/runner.rs`,
`src/openclaw.rs`, `src/config.rs`).

The filesystem is modelled as an association list from path strings to file
contents; the persisted per-pipeline state (`state.json`, a `BTreeMap` from
step id to status in the source) is an association list from step id to
status.  Rust `Result<T, String>` becomes `Except String T`; side effects on
the filesystem are threaded explicitly.  Child processes are external to the
program, so their outcome enters the model as an explicit parameter.
-/

namespace Cronclaw

/-! ## Association lists (model of `BTreeMap` and of the filesystem) -/

/-- Lookup in an association list keyed by strings. -/
def alLookup {α : Type} : List (String × α) → String → Option α
  | [], _ => none
  | (k, v) :: rest, q => if k = q then some v else alLookup rest q

/-- Insert (or overwrite in place) a binding, as `BTreeMap::insert` /
`fs::write` overwriting an existing file. -/
def alInsert {α : Type} : List (String × α) → String → α → List (String × α)
  | [], k, v => [(k, v)]
  | (k', v') :: rest, k, v =>
    if k' = k then (k, v) :: rest else (k', v') :: alInsert rest k v

/-- Remove a binding (model of removing a file). -/
def alErase {α : Type} : List (String × α) → String → List (String × α)
  | [], _ => []
  | (k', v') :: rest, k =>
    if k' = k then alErase rest k else (k', v') :: alErase rest k

theorem alLookup_alInsert_self {α : Type} (m : List (String × α)) (k : String) (v : α) :
    alLookup (alInsert m k v) k = some v := by
  induction m with
  | nil => simp [alInsert, alLookup]
  | cons p rest ih =>
    obtain ⟨pk, pv⟩ := p
    by_cases h : pk = k
    · simp [alInsert, alLookup, h]
    · simpa [alInsert, alLookup, h] using ih

theorem alLookup_alInsert_ne {α : Type} (m : List (String × α)) (k k' : String) (v : α)
    (h : k' ≠ k) : alLookup (alInsert m k v) k' = alLookup m k' := by
  induction m with
  | nil => simp [alInsert, alLookup, Ne.symm h]
  | cons p rest ih =>
    obtain ⟨pk, pv⟩ := p
    by_cases hk : pk = k
    · subst hk
      simp [alInsert, alLookup, Ne.symm h]
    · by_cases hk' : pk = k'
      · subst hk'
        simp [alInsert, alLookup, hk]
      · simpa [alInsert, alLookup, hk, hk'] using ih

/-- A filesystem: paths mapped to file contents. -/
abbrev FS := List (String × String)

/-- Model of `Path::join` for the relative paths this program uses. -/
def pathJoin (base rel : String) : String := base ++ "/" ++ rel

/-! ## String containment (used to state what error messages mention) -/

theorem string_data_append (a b : String) : (a ++ b).data = a.data ++ b.data := by
  cases a; cases b; rfl

theorem string_eq_of_data_eq {a b : String} (h : a.data = b.data) : a = b := by
  cases a; cases b; exact congrArg String.mk h

/-- `strContains hay needle` holds when `needle` occurs as a contiguous
substring of `hay`. -/
def strContains (hay needle : String) : Prop := needle.data <:+: hay.data

instance (hay needle : String) : Decidable (strContains hay needle) := by
  unfold strContains; infer_instance

theorem strContains_of_parts (a b c : String) : strContains (a ++ b ++ c) b := by
  refine ⟨a.data, c.data, ?_⟩
  rw [string_data_append, string_data_append]

theorem strContains_mono_left {a m : String} (b c : String) (h : strContains a m) :
    strContains (b ++ a ++ c) m := by
  obtain ⟨s, t, hst⟩ := h
  exact ⟨b.data ++ s, t ++ c.data, by
    rw [string_data_append, string_data_append, ← hst]; simp⟩

/-! ## Pipeline data model (`src/pipeline.rs`) -/

/-- Where to route a stream (stdout or stderr) from a step
(`pipeline.rs`, `enum StreamTarget`). -/
inductive StreamTarget
  | terminal
  | void
  | file (path : String)
deriving DecidableEq, Repr

/-- The three shapes a YAML field can take from the deserializer's point of
view: absent, present-but-null, present with a string value. -/
inductive YamlField
  | absent
  | null
  | str (s : String)
deriving DecidableEq, Repr

/-- Decoding of a stream-routing field (`pipeline.rs`,
`impl Deserialize for StreamTarget` together with `#[serde(default)]` on the
`Step` fields): an absent field takes the `Default` value `Terminal`; a field
present but null decodes to `Void`; a string value decodes to `File`. -/
def streamTargetDeserialize : YamlField → StreamTarget
  | .absent => .terminal
  | .null => .void
  | .str s => .file s

/-- A step's kind (`pipeline.rs`, `enum StepType`). -/
inductive StepType
  | agent
  | bash
deriving DecidableEq, Repr

/-- A declared output artifact (`pipeline.rs`, `struct Output`):
`path` is the final path, `tmp` the temporary one, both workspace-relative. -/
structure Output where
  name : String
  path : String
  tmp : String
deriving DecidableEq, Repr

/-- A pipeline step (`pipeline.rs`, `struct Step`). -/
structure Step where
  id : String
  step_type : StepType
  agent : Option String
  prompt : Option String
  output : StreamTarget
  error : StreamTarget
  bash : Option String
  timeout : Option Nat
  outputs : List Output
deriving DecidableEq, Repr

/-- The per-step-kind field validation performed by `pipeline.rs::parse`
after the schema-level deserialization succeeded: the first step whose
kind-specific fields are missing yields the error, otherwise the document is
accepted.  (The schema-level `serde_yaml` parse itself is pure and is not
modelled beyond producing the `Step` list.) -/
def parse_validate : List Step → Except String Unit
  | [] => .ok ()
  | s :: rest =>
    match s.step_type with
    | .bash =>
      if s.bash.isNone then
        .error ("step \x27" ++ s.id ++ "\x27: type is bash but \x27bash\x27 field is missing")
      else parse_validate rest
    | .agent =>
      if s.agent.isNone || s.prompt.isNone then
        .error ("step \x27" ++ s.id ++ "\x27: type is agent but \x27agent\x27 or \x27prompt\x27 field is missing")
      else parse_validate rest

/-- A step whose kind-specific payload is incomplete, i.e. exactly the
condition `pipeline.rs::parse` rejects. -/
def offendingStep (s : Step) : Prop :=
  (s.step_type = .bash ∧ s.bash = none) ∨
    (s.step_type = .agent ∧ (s.agent = none ∨ s.prompt = none))

instance (s : Step) : Decidable (offendingStep s) := by
  unfold offendingStep; infer_instance

/-! ## Persisted state (`src/state.rs`) -/

/-- Step status (`state.rs`, `enum StepStatus`). -/
inductive StepStatus
  | pending
  | running
  | completed
  | failed
deriving DecidableEq, Repr

/-- The persisted state: step id mapped to status (`state.rs`, `State`,
a `BTreeMap<String, StepState>`). -/
abbrev StateMap := List (String × StepStatus)

/-- `State::from_pipeline`: one all-`Pending` entry per step id; inserting
into the map collapses duplicate ids to a single entry. -/
def from_pipeline (steps : List Step) : StateMap :=
  steps.foldl (fun m s => alInsert m s.id .pending) []

/-! ## The tick coordinator (`src/runner.rs`) -/

/-- Equality of the id sets of the definition and of the persisted state
(`runner.rs::acquire_ticket`, the `BTreeSet` comparison): mutual inclusion. -/
def idSetEq (steps : List Step) (st : StateMap) : Bool :=
  steps.all (fun s => (alLookup st s.id).isSome) &&
    st.all (fun p => steps.any (fun s => s.id == p.1))

/-- Result of claiming a step (`runner.rs`, `struct Ticket`); `state` is the
state as persisted when the claimed step was marked `Running`. -/
structure Ticket where
  step_index : Nat
  step_id : String
  timeout_secs : Nat
  state : StateMap
deriving DecidableEq, Repr

/-- The selection scan of `runner.rs::acquire_ticket` (the `for` loop):
skip `Completed` steps; stop without a ticket at the first `Running` or
`Failed` step, or when every step is `Completed`; claim the first `Pending`
step by marking it `Running`.  The `none` arm of the lookup is unreachable
when the id-set check passed (the source indexes the map directly there). -/
def acquireScan (st : StateMap) (cfgTimeout : Nat) : Nat → List Step → Option Ticket
  | _, [] => none
  | i, s :: rest =>
    match alLookup st s.id with
    | none => none
    | some .completed => acquireScan st cfgTimeout (i + 1) rest
    | some .running => none
    | some .failed => none
    | some .pending =>
      some { step_index := i
             step_id := s.id
             timeout_secs := s.timeout.getD cfgTimeout
             state := alInsert st s.id .running }

/-- `runner.rs::acquire_ticket`, from the point where the state is loaded:
verify the id sets match (else a hard error naming the pipeline and the
reset operation), then run the selection scan.  A `some` ticket means the
claimed step was marked `Running` and that state persisted before execution;
`none` means a no-op tick. -/
def acquire_ticket (pipeline_name : String) (steps : List Step) (st : StateMap)
    (cfgTimeout : Nat) : Except String (Option Ticket) :=
  if idSetEq steps st then
    .ok (acquireScan st cfgTimeout 0 steps)
  else
    .error ("[" ++ pipeline_name ++
      "] state file mismatch — steps in pipeline.yaml don\x27t match state.json. " ++
      "Consider resetting the pipeline with \x60cronclaw reset " ++ pipeline_name ++ "\x60.")

/-! ## Template resolver (`runner.rs::resolve_templates`)

The source scans the prompt with the regex `\{\{\s*file:\s*(.+?)\s*\}\}`
(leftmost, non-overlapping matches), then, for each match in order, replaces
every occurrence of the matched text in the accumulated result with the
contents of the referenced file.  The matcher below embeds that regex
directly: `\s` is whitespace, `.` is any character except a newline, the
capture `(.+?)` is lazy (shortest first), the `\s*` before the capture is
greedy with backtracking, and the `\s*` before the closing braces can give
at most one consistent split (a `}` is not whitespace). -/

/-- The code points of the Unicode property `White_Space`.  The Rust
`regex` crate compiles `\s` in its default Unicode mode, where it denotes
`\p{White_Space}`: U+0009-U+000D, U+0020, U+0085 (NEL), U+00A0 (NBSP),
U+1680, U+2000-U+200A, U+2028, U+2029, U+202F, U+205F and U+3000. -/
def whiteSpaceCodes : List Nat :=
  [0x9, 0xa, 0xb, 0xc, 0xd, 0x20, 0x85, 0xa0, 0x1680,
   0x2000, 0x2001, 0x2002, 0x2003, 0x2004, 0x2005, 0x2006, 0x2007,
   0x2008, 0x2009, 0x200a, 0x2028, 0x2029, 0x202f, 0x205f, 0x3000]

/-- The characters matched by the regex class `\s` (Unicode
`White_Space`). -/
def rustWs (c : Char) : Bool :=
  whiteSpaceCodes.contains c.toNat

/-- Attempt to match the closing `\s*\}\}` at the head of the input:
returns `(matched closing text, rest)`.  Since `}` is not whitespace, the
split between the whitespace run and the braces is unique. -/
def closeAt (cs : List Char) : Option (List Char × List Char) :=
  match cs.dropWhile rustWs with
  | '\x7d' :: '\x7d' :: rest2 => some (cs.takeWhile rustWs ++ ['\x7d', '\x7d'], rest2)
  | _ => none

/-- Extend the lazy capture one character at a time until `\s*\}\}` closes
the match: returns `(capture, closing text, rest of input)`. -/
def findClose (acc : List Char) (cs : List Char) :
    Option (List Char × List Char × List Char) :=
  match closeAt cs with
  | some (tl, rest) => some (acc, tl, rest)
  | none =>
    match cs with
    | [] => none
    | c :: cs2 => if c = '\n' then none else findClose (acc ++ [c]) cs2

/-- Start the lazy capture `(.+?)`: it needs at least one character, which
may not be a newline. -/
def tryCapture (cs : List Char) : Option (List Char × List Char × List Char) :=
  match cs with
  | [] => none
  | c :: cs2 => if c = '\n' then none else findClose [c] cs2

/-- Backtracking for the greedy `\s*` before the capture: try the longest
whitespace run first, then give characters back one at a time.  `wsRev` is
the whitespace currently consumed, reversed. -/
def bwLoop (wsRev : List Char) (cs : List Char) :
    Option (List Char × List Char × List Char × List Char) :=
  match tryCapture cs with
  | some (cap, tl, rest) => some (wsRev.reverse, cap, tl, rest)
  | none =>
    match wsRev with
    | [] => none
    | c :: wsRev2 => bwLoop wsRev2 (c :: cs)

/-- Match the full pattern at the head of the input.  Returns
`(matched text, capture, rest of input)`. -/
def matchFileRef (cs : List Char) : Option (List Char × List Char × List Char) :=
  match cs with
  | '\x7b' :: '\x7b' :: cs1 =>
    match cs1.dropWhile rustWs with
    | 'f' :: 'i' :: 'l' :: 'e' :: ':' :: cs3 =>
      match bwLoop (cs3.takeWhile rustWs).reverse (cs3.dropWhile rustWs) with
      | some (w2, cap, tl, rest) =>
        some ('\x7b' :: '\x7b' :: (cs1.takeWhile rustWs ++
                ('f' :: 'i' :: 'l' :: 'e' :: ':' :: (w2 ++ cap ++ tl))), cap, rest)
      | none => none
    | _ => none
  | _ => none

theorem closeAt_decomp {cs tl rest : List Char} (h : closeAt cs = some (tl, rest)) :
    cs = tl ++ rest := by
  unfold closeAt at h
  rcases hdw : cs.dropWhile rustWs with _ | ⟨d1, tl1⟩
  · rw [hdw] at h; cases h
  · rw [hdw] at h
    rcases tl1 with _ | ⟨d2, tl2⟩
    · by_cases h1 : d1 = '\x7d'
      · subst h1; cases h
      · rcases d1 with ⟨v1⟩
        split at h
        · rename_i heq
          injection heq with he1 he2
          exact absurd he1 h1
        · cases h
    · by_cases h1 : d1 = '\x7d'
      · subst h1
        by_cases h2 : d2 = '\x7d'
        · subst h2
          simp only at h
          injection h with h1
          injection h1 with htl hrest
          subst htl; subst hrest
          conv_lhs => rw [← List.takeWhile_append_dropWhile (p := rustWs) (l := cs)]
          rw [hdw]
          simp
        · split at h
          · rename_i heq
            injection heq with he1 he2
            injection he2 with he2
            exact absurd he2 h2
          · cases h
      · split at h
        · rename_i heq
          injection heq with he1
          exact absurd he1 h1
        · cases h

theorem findClose_decomp (cs : List Char) :
    ∀ acc cap tl rest, findClose acc cs = some (cap, tl, rest) →
      ∃ core, cap = acc ++ core ∧ cs = core ++ tl ++ rest := by
  induction cs with
  | nil =>
    intro acc cap tl rest h
    rw [findClose] at h
    rcases hc : closeAt ([] : List Char) with _ | ⟨tl0, rest0⟩
    · rw [hc] at h; cases h
    · rw [hc] at h
      injection h with h1
      injection h1 with hcap h2
      injection h2 with htl hrest
      subst hcap; subst htl; subst hrest
      exact ⟨[], by simp, by simpa using closeAt_decomp hc⟩
  | cons c cs2 ih =>
    intro acc cap tl rest h
    rw [findClose] at h
    rcases hc : closeAt (c :: cs2) with _ | ⟨tl0, rest0⟩
    · rw [hc] at h
      simp only at h
      split at h
      · cases h
      · obtain ⟨core, hcap, hcs⟩ := ih (acc ++ [c]) cap tl rest h
        refine ⟨c :: core, by simpa using hcap, ?_⟩
        simpa using congrArg (c :: ·) hcs
    · rw [hc] at h
      injection h with h1
      injection h1 with hcap h2
      injection h2 with htl hrest
      subst hcap; subst htl; subst hrest
      exact ⟨[], by simp, by simpa using closeAt_decomp hc⟩

theorem tryCapture_decomp {cs cap tl rest : List Char}
    (h : tryCapture cs = some (cap, tl, rest)) : cs = cap ++ tl ++ rest := by
  rcases cs with _ | ⟨c, cs2⟩
  · simp [tryCapture] at h
  · simp only [tryCapture] at h
    split at h
    · cases h
    · obtain ⟨core, hcap, hcs⟩ := findClose_decomp cs2 [c] cap tl rest h
      subst hcap
      simpa using congrArg (c :: ·) hcs

theorem bwLoop_decomp (wsRev : List Char) :
    ∀ cs w2 cap tl rest, bwLoop wsRev cs = some (w2, cap, tl, rest) →
      wsRev.reverse ++ cs = w2 ++ cap ++ tl ++ rest := by
  induction wsRev with
  | nil =>
    intro cs w2 cap tl rest h
    rw [bwLoop] at h
    rcases htc : tryCapture cs with _ | ⟨⟨cap0, tl0, rest0⟩⟩
    · rw [htc] at h; cases h
    · rw [htc] at h
      injection h with h1
      injection h1 with hw2 h2
      injection h2 with hcap h3
      injection h3 with htl hrest
      subst hw2; subst hcap; subst htl; subst hrest
      simpa using tryCapture_decomp htc
  | cons c wsRev2 ih =>
    intro cs w2 cap tl rest h
    rw [bwLoop] at h
    rcases htc : tryCapture cs with _ | ⟨⟨cap0, tl0, rest0⟩⟩
    · rw [htc] at h
      have := ih (c :: cs) w2 cap tl rest h
      simpa using this
    · rw [htc] at h
      injection h with h1
      injection h1 with hw2 h2
      injection h2 with hcap h3
      injection h3 with htl hrest
      subst hw2; subst hcap; subst htl; subst hrest
      simpa using tryCapture_decomp htc

theorem matchFileRef_decomp {cs full cap rest : List Char}
    (h : matchFileRef cs = some (full, cap, rest)) :
    cs = full ++ rest ∧ full ≠ [] := by
  unfold matchFileRef at h
  rcases cs with _ | ⟨c1, cs0⟩
  · cases h
  rcases cs0 with _ | ⟨c2, cs1⟩
  · exact absurd h (by rcases c1 with ⟨v1⟩; simp)
  by_cases h1 : c1 = '\x7b'
  · subst h1
    by_cases h2 : c2 = '\x7b'
    · subst h2
      simp only at h
      rcases hdw : cs1.dropWhile rustWs with _ | ⟨d, dtl⟩
      · rw [hdw] at h; cases h
      · rw [hdw] at h
        by_cases hfile : d = 'f' ∧ ∃ t4, dtl = 'i' :: 'l' :: 'e' :: ':' :: t4
        · obtain ⟨hd, t4, hdtl⟩ := hfile
          subst hd; subst hdtl
          simp only at h
          rcases hbw : bwLoop (t4.takeWhile rustWs).reverse (t4.dropWhile rustWs) with
            _ | ⟨⟨w2, cap0, tl0, rest0⟩⟩
          · rw [hbw] at h; cases h
          · rw [hbw] at h
            injection h with h1
            injection h1 with hfull h2
            injection h2 with hcap hrest
            subst hfull; subst hcap; subst hrest
            have hbd := bwLoop_decomp _ _ _ _ _ _ hbw
            rw [List.reverse_reverse] at hbd
            have ht4 : t4 = w2 ++ cap0 ++ tl0 ++ rest0 := by
              conv_lhs => rw [← List.takeWhile_append_dropWhile (p := rustWs) (l := t4)]
              rw [hbd]
            constructor
            · have hcs1 : cs1 = cs1.takeWhile rustWs ++ ('f' :: 'i' :: 'l' :: 'e' :: ':' :: t4) := by
                conv_lhs => rw [← List.takeWhile_append_dropWhile (p := rustWs) (l := cs1)]
                rw [hdw]
              rw [ht4] at hcs1
              simp only [List.cons_append]
              congr 2
              conv_lhs => rw [hcs1]
              simp [List.append_assoc]
            · simp
        · -- `dropWhile` does not continue with `file:` ⇒ no match; show `h` impossible
          exfalso
          rcases Decidable.em (d = 'f') with hdf | hdf
          · subst hdf
            rcases dtl with _ | ⟨e1, t1⟩
            · simp at h
            rcases Decidable.em (e1 = 'i') with he1 | he1
            · subst he1
              rcases t1 with _ | ⟨e2, t2⟩
              · simp at h
              rcases Decidable.em (e2 = 'l') with he2 | he2
              · subst he2
                rcases t2 with _ | ⟨e3, t3⟩
                · simp at h
                rcases Decidable.em (e3 = 'e') with he3 | he3
                · subst he3
                  rcases t3 with _ | ⟨e4, t4⟩
                  · simp at h
                  rcases Decidable.em (e4 = ':') with he4 | he4
                  · subst he4
                    exact hfile ⟨rfl, t4, rfl⟩
                  · rcases e4 with ⟨v⟩
                    revert h
                    split
                    · rename_i heq
                      injection heq with q1 q2
                      injection q2 with q2 q3
                      injection q3 with q3 q4
                      injection q4 with q4 q5
                      injection q5 with q5
                      exact absurd q5 he4
                    · simp
                · rcases e3 with ⟨v⟩
                  revert h
                  split
                  · rename_i heq
                    injection heq with q1 q2
                    injection q2 with q2 q3
                    injection q3 with q3 q4
                    injection q4 with q4
                    exact absurd q4 he3
                  · simp
              · rcases e2 with ⟨v⟩
                revert h
                split
                · rename_i heq
                  injection heq with q1 q2
                  injection q2 with q2 q3
                  injection q3 with q3
                  exact absurd q3 he2
                · simp
            · rcases e1 with ⟨v⟩
              revert h
              split
              · rename_i heq
                injection heq with q1 q2
                injection q2 with q2
                exact absurd q2 he1
              · simp
          · rcases d with ⟨v⟩
            revert h
            split
            · rename_i heq
              injection heq with q1
              exact absurd q1 hdf
            · simp
    · rcases c2 with ⟨v⟩
      revert h
      split
      · rename_i heq
        injection heq with q1 q2
        injection q2 with q2
        exact absurd q2 h2
      · simp
  · rcases c1 with ⟨v⟩
    revert h
    split
    · rename_i heq
      injection heq with q1
      exact absurd q1 h1
    · simp

/-- The scan of `Regex::captures_iter`: find leftmost matches, continue
after each match (non-overlapping), advance one character where no match
starts.  Written with a fuel parameter so it computes by `rfl`; each
iteration consumes at least one character (`matchFileRef_decomp`), so
`fuel = cs.length` is always sufficient (`findRefsAux_fuel`). -/
def findRefsAux : Nat → List Char → List (String × String)
  | 0, _ => []
  | Nat.succ fuel, cs =>
    match matchFileRef cs with
    | some (full, cap, rest) => (String.mk full, String.mk cap) :: findRefsAux fuel rest
    | none =>
      match cs with
      | [] => []
      | _ :: cs2 => findRefsAux fuel cs2

/-- All `\{\{\s*file:\s*(.+?)\s*\}\}` matches of the input, in order, as
`(matched text, captured path)` pairs. -/
def findFileRefs (cs : List Char) : List (String × String) :=
  findRefsAux cs.length cs

theorem findRefsAux_fuel (fuel₁ : Nat) :
    ∀ fuel₂ cs, cs.length ≤ fuel₁ → cs.length ≤ fuel₂ →
      findRefsAux fuel₁ cs = findRefsAux fuel₂ cs := by
  induction fuel₁ with
  | zero =>
    intro fuel₂ cs h1 _
    have : cs = [] := List.length_eq_zero.mp (Nat.le_zero.mp h1)
    subst this
    cases fuel₂ with
    | zero => rfl
    | succ f => simp [findRefsAux, matchFileRef]
  | succ fuel ih =>
    intro fuel₂ cs h1 h2
    cases cs with
    | nil =>
      cases fuel₂ with
      | zero => simp [findRefsAux, matchFileRef]
      | succ f => simp [findRefsAux, matchFileRef]
    | cons c cs2 =>
      cases fuel₂ with
      | zero => exact absurd h2 (by simp)
      | succ f2 =>
        simp only [findRefsAux]
        rcases hm : matchFileRef (c :: cs2) with _ | ⟨⟨full, cap, rest⟩⟩
        · simp only
          have hlen : cs2.length ≤ fuel := by simpa using h1
          have hlen2 : cs2.length ≤ f2 := by simpa using h2
          rw [ih f2 cs2 hlen hlen2]
        · simp only
          obtain ⟨hsplit, hne⟩ := matchFileRef_decomp hm
          have hfull : 1 ≤ full.length := by
            rcases full with _ | ⟨a, b⟩
            · exact absurd rfl hne
            · simp
          have hlensum : cs2.length + 1 = full.length + rest.length := by
            have := congrArg List.length hsplit
            simpa using this
          have h1' : cs2.length + 1 ≤ fuel + 1 := by simpa using h1
          have h2' : cs2.length + 1 ≤ f2 + 1 := by simpa using h2
          have hlen : rest.length ≤ fuel := by omega
          have hlen2 : rest.length ≤ f2 := by omega
          rw [ih f2 rest hlen hlen2]

/-- Model of Rust `str::replace`: replace every non-overlapping occurrence
of `pat`, scanning left to right.  Fuel-based so it computes by `rfl`;
`fuel = s.length` is sufficient since every iteration consumes at least one
character (the patterns used here, full regex matches, are never empty). -/
def replaceAllAux (pat rep : List Char) : Nat → List Char → List Char
  | 0, s => s
  | Nat.succ fuel, s =>
    match s with
    | [] => []
    | c :: cs =>
      if pat.isPrefixOf (c :: cs) && !pat.isEmpty then
        rep ++ replaceAllAux pat rep fuel ((c :: cs).drop pat.length)
      else
        c :: replaceAllAux pat rep fuel cs

/-- Replace every occurrence of `pat` by `rep` in `s`. -/
def replaceAll (pat rep s : List Char) : List Char :=
  replaceAllAux pat rep s.length s

/-- The substitution loop of `runner.rs::resolve_templates`: for each match
`(full, path)` in order, read `workspace/path` and replace every occurrence
of `full` in the accumulated result with the file contents; a file that
cannot be read aborts with an error naming the matched text and the
resolved path. -/
def resolveGo (workspace : String) (fs : FS) :
    List (String × String) → List Char → Except String String
  | [], result => .ok (String.mk result)
  | (full, fp) :: rest, result =>
    match alLookup fs (pathJoin workspace fp) with
    | none =>
      .error ("template \x27" ++ full ++ "\x27: failed to read \x27" ++
        pathJoin workspace fp ++ "\x27: No such file or directory (os error 2)")
    | some content => resolveGo workspace fs rest (replaceAll full.data content.data result)

/-- `runner.rs::resolve_templates`: collect all matches of the original
input, then substitute them in order. -/
def resolve_templates (input workspace : String) (fs : FS) : Except String String :=
  resolveGo workspace fs (findFileRefs input.data) input.data

/-! ## Output promotion (`runner.rs::promote_outputs`) -/

/-- `runner.rs::promote_outputs`: for each declared output in order, require
the tmp artifact to exist under the workspace (else stop with an error
naming the output and the missing tmp path), then rename it onto the final
path, overwriting any prior file.  Returns the resulting filesystem and the
error, if any; renames already performed are kept when a later output
fails. -/
def promote_outputs : List Output → String → FS → FS × Option String
  | [], _, fs => (fs, none)
  | o :: rest, workspace, fs =>
    match alLookup fs (pathJoin workspace o.tmp) with
    | none =>
      (fs, some ("output \x27" ++ o.name ++ "\x27: tmp file \x27" ++ o.tmp ++
        "\x27 not found after step completed"))
    | some content =>
      promote_outputs rest workspace
        (alInsert (alErase fs (pathJoin workspace o.tmp)) (pathJoin workspace o.path) content)

/-! ## Step execution (`runner.rs::execute_step`, `run_with_timeout`,
`src/openclaw.rs`) -/

/-- Outcome of a spawned child process, supplied to the model as a
parameter since the child is external to the program. -/
inductive ExecOutcome
  | success
  | failure (msg : String)
deriving DecidableEq, Repr

/-- What the supervisor observes once the child has finished. -/
structure ChildOutcome where
  exit_success : Bool
  exit_code : Int
  stdout : String
  stderr : String
deriving DecidableEq, Repr

/-- The output handling of `runner.rs::run_with_timeout` once the child's
outcome is known (lines 219–239): the complete captured stdout is printed to
the orchestrator's own stdout when nonempty, the captured stderr to the
orchestrator's stderr when nonempty, and the filesystem is untouched.  The
function receives no step and no `StreamTarget` — the source never passes
the step's routing configuration into the supervisor.  Returns
`(lines printed to stdout, lines printed to stderr, filesystem, result)`. -/
def run_with_timeout_finish (o : ChildOutcome) (fs : FS) :
    List String × List String × FS × Except String Unit :=
  ((if o.stdout = "" then [] else [o.stdout]),
   (if o.stderr = "" then [] else [o.stderr]),
   fs,
   if o.exit_success then .ok () else .error ("exited with code " ++ toString o.exit_code))

/-- `openclaw.rs::resolve_binary`: the `OPENCLAW_BIN` environment override,
else the fixed name `openclaw` (found via `PATH`).  The environment lookup
is a parameter. -/
def resolve_binary (envOverride : Option String) : String :=
  envOverride.getD "openclaw"

/-- A command ready to spawn: program, arguments in order, working
directory. -/
structure CommandModel where
  program : String
  args : List String
  current_dir : String
deriving DecidableEq, Repr

/-- `openclaw.rs::build_command`: the exact invocation of the agent-routing
collaborator. -/
def build_command (envOverride : Option String) (agent prompt : String)
    (workspace : String) (timeout_secs : Nat) : CommandModel :=
  { program := resolve_binary envOverride
    args := ["agent", "--message", prompt, "--to", agent, "--local",
             "--timeout", toString timeout_secs]
    current_dir := workspace }

/-- `runner.rs::execute_step`.  The bash arm spawns `sh -c <script>` in the
workspace and supervises it; the child's outcome enters as the
`bashOutcome` parameter, and `run_with_timeout`'s translation of it is
applied.  The agent arm resolves template macros in the prompt and then —
without invoking the agent collaborator — fails with a fixed error
(`runner.rs` lines 198–202, "TODO: integrate with OpenClaw agent
runtime").  The source unwraps the kind-specific fields (validated at
parse time); the model defaults them. -/
def execute_step (step : Step) (workspace : String) (fs : FS)
    (bashOutcome : ExecOutcome) : Except String Unit :=
  match step.step_type with
  | .bash =>
    match bashOutcome with
    | .success => .ok ()
    | .failure m => .error m
  | .agent =>
    match resolve_templates (step.prompt.getD "") workspace fs with
    | .error e => .error e
    | .ok _ => .error ("agent steps are not yet implemented")

/-! ## One tick of one pipeline (`runner.rs::run_pipeline`) -/

/-- The tick from the point where the pipeline definition and state are
loaded (`runner.rs::run_pipeline`): acquire a ticket (which persists the
claimed step as `Running`); on a `none` ticket do nothing; otherwise execute
the claimed step outside the lock, then on success promote outputs and only
if that succeeds persist `Completed`; on execution failure persist `Failed`
and surface the failure attached to the pipeline name and step id.  Returns
`(result, persisted state at end of tick, filesystem)`. -/
def run_pipeline_tick (pipeline_name : String) (steps : List Step) (st : StateMap)
    (cfgTimeout : Nat) (bashOutcome : ExecOutcome) (workspace : String) (fs : FS) :
    Except String Unit × StateMap × FS :=
  match acquire_ticket pipeline_name steps st cfgTimeout with
  | .error e => (.error e, st, fs)
  | .ok none => (.ok (), st, fs)
  | .ok (some t) =>
    match steps[t.step_index]? with
    | none => (.ok (), t.state, fs)
    | some step =>
      match execute_step step workspace fs bashOutcome with
      | .ok _ =>
        match promote_outputs step.outputs workspace fs with
        | (fs2, some e) => (.error e, t.state, fs2)
        | (fs2, none) => (.ok (), alInsert t.state t.step_id .completed, fs2)
      | .error m =>
        (.error ("[" ++ pipeline_name ++ "] step \x27" ++ step.id ++ "\x27 failed: " ++ m),
         alInsert t.state t.step_id .failed, fs)

/-! ## Helper lemmas -/

theorem string_mk_data (s : String) : String.mk s.data = s := by
  cases s; rfl

theorem string_append_empty (s : String) : s ++ "" = s := by
  apply string_eq_of_data_eq
  rw [string_data_append]
  simp [String.data]

theorem strContains_append_left {a m : String} (b : String) (h : strContains a m) :
    strContains (b ++ a) m := by
  obtain ⟨s, t, hst⟩ := h
  exact ⟨b.data ++ s, t, by rw [string_data_append, ← hst]; simp⟩

theorem strContains_append_right {a m : String} (c : String) (h : strContains a m) :
    strContains (a ++ c) m := by
  obtain ⟨s, t, hst⟩ := h
  exact ⟨s, t ++ c.data, by rw [string_data_append, ← hst]; simp⟩

theorem strContains_append_self_right (b m : String) : strContains (b ++ m) m :=
  ⟨b.data, [], by rw [string_data_append]; simp⟩

theorem alLookup_alErase_self {α : Type} (m : List (String × α)) (k : String) :
    alLookup (alErase m k) k = none := by
  induction m with
  | nil => simp [alErase, alLookup]
  | cons p rest ih =>
    obtain ⟨pk, pv⟩ := p
    by_cases h : pk = k
    · simpa [alErase, h] using ih
    · simpa [alErase, alLookup, h] using ih

theorem alLookup_alErase_ne {α : Type} (m : List (String × α)) (k k' : String)
    (h : k' ≠ k) : alLookup (alErase m k) k' = alLookup m k' := by
  induction m with
  | nil => simp [alErase, alLookup]
  | cons p rest ih =>
    obtain ⟨pk, pv⟩ := p
    by_cases hk : pk = k
    · subst hk
      simpa [alErase, alLookup, Ne.symm h] using ih
    · by_cases hk' : pk = k'
      · simp [alErase, alLookup, hk, hk', h]
      · simpa [alErase, alLookup, hk, hk'] using ih

theorem pathJoin_inj (ws : String) {a b : String} (h : pathJoin ws a = pathJoin ws b) :
    a = b := by
  have hd := congrArg String.data h
  unfold pathJoin at hd
  rw [string_data_append, string_data_append, string_data_append, string_data_append] at hd
  exact string_eq_of_data_eq (List.append_cancel_left hd)

theorem getElem?_append_len {α : Type} (l₁ : List α) (a : α) (l₂ : List α) :
    (l₁ ++ a :: l₂)[l₁.length]? = some a := by
  induction l₁ with
  | nil => simp
  | cons x xs ih => simpa using ih

theorem acquireScan_skip (st : StateMap) (cfg : Nat) :
    ∀ done : List Step, (∀ d ∈ done, alLookup st d.id = some .completed) →
      ∀ (i : Nat) (rest : List Step),
        acquireScan st cfg i (done ++ rest) = acquireScan st cfg (i + done.length) rest := by
  intro done
  induction done with
  | nil => intro _ i rest; simp
  | cons d ds ih =>
    intro h i rest
    have hd : alLookup st d.id = some .completed := h d (by simp)
    simp only [List.cons_append, acquireScan, hd, List.append_eq]
    rw [ih (fun x hx => h x (by simp [hx])) (i + 1) rest]
    have harith : i + 1 + ds.length = i + (d :: ds).length := by
      simp only [List.length_cons]; omega
    rw [harith]

theorem acquireScan_some (st : StateMap) (cfg : Nat) :
    ∀ (L : List Step) (i : Nat) (t : Ticket), acquireScan st cfg i L = some t →
      t.state = alInsert st t.step_id .running ∧
        alLookup st t.step_id = some .pending := by
  intro L
  induction L with
  | nil => intro i t h; simp [acquireScan] at h
  | cons s rest ih =>
    intro i t h
    simp only [acquireScan] at h
    rcases hl : alLookup st s.id with _ | st0
    · rw [hl] at h; cases h
    · rw [hl] at h
      cases st0 with
      | pending =>
        simp only at h
        injection h with h'
        subst h'
        exact ⟨rfl, hl⟩
      | running => cases h
      | completed => exact ih (i + 1) t h
      | failed => cases h

theorem resolveGo_all_readable (ws : String) (fs : FS) :
    ∀ (ms : List (String × String)) (r : List Char),
      (∀ m ∈ ms, (alLookup fs (pathJoin ws m.2)).isSome = true) →
      ∃ out, resolveGo ws fs ms r = .ok out := by
  intro ms
  induction ms with
  | nil => intro r _; exact ⟨String.mk r, rfl⟩
  | cons m rest ih =>
    intro r h
    obtain ⟨full, fp⟩ := m
    have hm : (alLookup fs (pathJoin ws fp)).isSome = true := h (full, fp) (by simp)
    rcases hl : alLookup fs (pathJoin ws fp) with _ | content
    · rw [hl] at hm; cases hm
    · simp only [resolveGo, hl]
      exact ih _ (fun x hx => h x (by simp [hx]))

theorem resolveGo_error_names (ws : String) (fs : FS) :
    ∀ (ms : List (String × String)) (r : List Char) (e : String),
      resolveGo ws fs ms r = .error e →
      ∃ full p, (full, p) ∈ ms ∧ alLookup fs (pathJoin ws p) = none ∧
        strContains e full ∧ strContains e (pathJoin ws p) := by
  intro ms
  induction ms with
  | nil => intro r e h; simp [resolveGo] at h
  | cons m rest ih =>
    intro r e h
    obtain ⟨full, fp⟩ := m
    rcases hl : alLookup fs (pathJoin ws fp) with _ | content
    · simp only [resolveGo, hl] at h
      injection h with h'
      refine ⟨full, fp, by simp, hl, ?_, ?_⟩
      · rw [← h']
        exact strContains_append_right _ (strContains_append_right _
          (strContains_append_right _ (strContains_append_self_right "template \x27" full)))
      · rw [← h']
        exact strContains_append_right _ (strContains_append_self_right _ _)
    · simp only [resolveGo, hl] at h
      obtain ⟨f2, p2, hmem, hnone, hc1, hc2⟩ := ih _ e h
      exact ⟨f2, p2, by simp [hmem], hnone, hc1, hc2⟩

theorem resolveGo_some_unreadable (ws : String) (fs : FS) :
    ∀ (ms : List (String × String)) (r : List Char),
      (∃ m ∈ ms, alLookup fs (pathJoin ws m.2) = none) →
      ∃ e, resolveGo ws fs ms r = .error e := by
  intro ms
  induction ms with
  | nil => intro r h; simp at h
  | cons m rest ih =>
    intro r h
    obtain ⟨full, fp⟩ := m
    rcases hl : alLookup fs (pathJoin ws fp) with _ | content
    · exact ⟨"template \x27" ++ full ++ "\x27: failed to read \x27" ++ pathJoin ws fp ++
        "\x27: No such file or directory (os error 2)", by simp [resolveGo, hl]⟩
    · simp only [resolveGo, hl]
      obtain ⟨x, hx, hxn⟩ := h
      rcases List.mem_cons.mp hx with heq | hmem
    -- the head is readable, so the unreadable element is in the tail
      · subst heq; rw [hl] at hxn; cases hxn
      · exact ih _ ⟨x, hmem, hxn⟩

theorem findRefsAux_none :
    ∀ (cs : List Char), (∀ n, n < cs.length → matchFileRef (cs.drop n) = none) →
      ∀ fuel, findRefsAux fuel cs = [] := by
  intro cs
  induction cs with
  | nil =>
    intro _ fuel
    cases fuel with
    | zero => rfl
    | succ f => simp [findRefsAux, matchFileRef]
  | cons c cs2 ih =>
    intro h fuel
    cases fuel with
    | zero => rfl
    | succ f =>
      have h0 : matchFileRef (c :: cs2) = none := by
        have := h 0 (by simp)
        simpa using this
      simp only [findRefsAux, h0]
      exact ih (fun n hn => by simpa using h (n + 1) (by simpa using hn)) f

/-! ## Claim theorems -/

/-- C1: the claim says captured stdout/stderr are routed per the step's
`StreamTarget`s (Terminal mirrored, Void discarded, File written to a
workspace-relative file).  The code does parse the three-way targets
(`streamTargetDeserialize`), but the supervisor's output handling
(`run_with_timeout_finish`, from `runner.rs::run_with_timeout`) never
receives them: evaluated at a step whose stdout target is `File
"result.md"` (and at one whose targets would be `Void`), the captured
streams are mirrored to the orchestrator's terminal whenever nonempty and
the filesystem is left untouched — no file is created and nothing is
discarded. -/
theorem c1_routing_ignores_stream_targets :
    streamTargetDeserialize (.str "result.md") = .file "result.md" ∧
    streamTargetDeserialize .null = .void ∧
    streamTargetDeserialize .absent = .terminal ∧
    run_with_timeout_finish ⟨true, 0, "agent response content\n", ""⟩ [] =
      (["agent response content\n"], [], [], .ok ()) ∧
    run_with_timeout_finish ⟨true, 0, "mirrored anyway", "warn"⟩ [("ws/keep", "x")] =
      (["mirrored anyway"], ["warn"], [("ws/keep", "x")], .ok ()) := by
  exact ⟨rfl, rfl, rfl, rfl, rfl⟩

/-- C2: the claim says an executed Agent-kind step resolves template macros
and then invokes the collaborator binary as built by
`openclaw.rs::build_command`.  `build_command` does produce exactly the
claimed invocation (second conjunct), but `runner.rs::execute_step` never
calls it: evaluated at a concrete agent step, the executor resolves the
prompt and then fails with a fixed "not yet implemented" error without
spawning the collaborator. -/
theorem c2_agent_step_never_invokes_collaborator :
    execute_step ⟨"analyse", .agent, some "pro-worker", some "Analyse this data",
        .terminal, .terminal, none, none, []⟩ "ws" [] .success =
      .error ("agent steps are not yet implemented") ∧
    build_command none "pro-worker" "Analyse this data" "ws" 300 =
      { program := "openclaw"
        args := ["agent", "--message", "Analyse this data", "--to", "pro-worker",
                 "--local", "--timeout", "300"]
        current_dir := "ws" } := by
  exact ⟨rfl, by decide⟩

/-- C9: parsing does not reject duplicate step ids.  For the concrete
pipeline with two bash steps both named `"a"`: validation succeeds, the
initial state has exactly one entry (fewer entries than steps), the id-set
check still passes, both steps consult the same shared entry during
selection — the first tick claims index 0, and once the shared entry is
`Completed` the scan treats both steps as completed and the tick is a
no-op. -/
theorem c9_duplicate_ids_accepted :
    parse_validate
        [⟨"a", .bash, none, none, .terminal, .terminal, some "echo 1", none, []⟩,
         ⟨"a", .bash, none, none, .terminal, .terminal, some "echo 2", none, []⟩] = .ok () ∧
    from_pipeline
        [⟨"a", .bash, none, none, .terminal, .terminal, some "echo 1", none, []⟩,
         ⟨"a", .bash, none, none, .terminal, .terminal, some "echo 2", none, []⟩] =
      [("a", .pending)] ∧
    (from_pipeline
        [⟨"a", .bash, none, none, .terminal, .terminal, some "echo 1", none, []⟩,
         ⟨"a", .bash, none, none, .terminal, .terminal, some "echo 2", none, []⟩]).length <
      2 ∧
    idSetEq
        [⟨"a", .bash, none, none, .terminal, .terminal, some "echo 1", none, []⟩,
         ⟨"a", .bash, none, none, .terminal, .terminal, some "echo 2", none, []⟩]
        [("a", .pending)] = true ∧
    acquire_ticket "p"
        [⟨"a", .bash, none, none, .terminal, .terminal, some "echo 1", none, []⟩,
         ⟨"a", .bash, none, none, .terminal, .terminal, some "echo 2", none, []⟩]
        [("a", .pending)] 300 =
      .ok (some ⟨0, "a", 300, [("a", .running)]⟩) ∧
    acquire_ticket "p"
        [⟨"a", .bash, none, none, .terminal, .terminal, some "echo 1", none, []⟩,
         ⟨"a", .bash, none, none, .terminal, .terminal, some "echo 2", none, []⟩]
        [("a", .completed)] 300 = .ok none := by
  exact ⟨rfl, by decide, by decide, by decide, rfl, rfl⟩

/-- C10: promotion of multiple declared outputs is not atomic.  For a step
declaring two outputs where only the second tmp is missing: promotion
returns the "not found" error for the second output, while the first output
has already been renamed (its tmp is gone and its final file exists), and
nothing is rolled back. -/
theorem c10_promotion_stops_at_first_failure :
    promote_outputs [⟨"a", "a.out", "a.tmp"⟩, ⟨"b", "b.out", "b.tmp"⟩] "ws"
        [("ws/a.tmp", "A")] =
      ([("ws/a.out", "A")],
       some ("output \x27b\x27: tmp file \x27b.tmp\x27 not found after step completed")) ∧
    alLookup [("ws/a.out", "A")] (pathJoin "ws" "a.out") = some "A" ∧
    alLookup [("ws/a.out", "A")] (pathJoin "ws" "a.tmp") = none ∧
    alLookup [("ws/a.out", "A")] (pathJoin "ws" "b.out") = none := by
  refine ⟨?_, ?_, ?_, ?_⟩ <;> decide

/-- C5 (amended): for every declared output processed by promotion: if its
tmp path exists under the workspace and differs from its final path,
promotion renames it onto the final path (overwriting any prior artifact),
after which the tmp path no longer exists and the final path holds the
original content, and continues with the remaining outputs on the updated
filesystem; if the tmp path is absent, promotion stops with an error
mentioning the output's name and "not found", leaving the filesystem as it
was; a step declaring no outputs trivially succeeds.  (The original claim's
"the tmp path no longer exists" fails when an output declares the same
string for tmp and final path — see the counterexample.) -/
theorem c5_promote_outputs (o : Output) (rest : List Output) (ws : String) (fs : FS) :
    (∀ c, alLookup fs (pathJoin ws o.tmp) = some c → o.tmp ≠ o.path →
       promote_outputs (o :: rest) ws fs =
         promote_outputs rest ws
           (alInsert (alErase fs (pathJoin ws o.tmp)) (pathJoin ws o.path) c) ∧
       alLookup (alInsert (alErase fs (pathJoin ws o.tmp)) (pathJoin ws o.path) c)
         (pathJoin ws o.tmp) = none ∧
       alLookup (alInsert (alErase fs (pathJoin ws o.tmp)) (pathJoin ws o.path) c)
         (pathJoin ws o.path) = some c) ∧
    (alLookup fs (pathJoin ws o.tmp) = none →
       ∃ e, promote_outputs (o :: rest) ws fs = (fs, some e) ∧
         strContains e o.name ∧ strContains e "not found") ∧
    promote_outputs ([] : List Output) ws fs = (fs, none) := by
  refine ⟨?_, ?_, rfl⟩
  · intro c hc hne
    have hjne : pathJoin ws o.tmp ≠ pathJoin ws o.path := fun h => hne (pathJoin_inj ws h)
    refine ⟨by simp only [promote_outputs, hc], ?_, ?_⟩
    · rw [alLookup_alInsert_ne _ _ _ _ hjne]
      exact alLookup_alErase_self fs (pathJoin ws o.tmp)
    · exact alLookup_alInsert_self _ _ _
  · intro hn
    refine ⟨"output \x27" ++ o.name ++ "\x27: tmp file \x27" ++ o.tmp ++
        "\x27 not found after step completed", by simp only [promote_outputs, hn], ?_, ?_⟩
    · exact strContains_append_right _ (strContains_append_right _
        (strContains_append_right _ (strContains_append_self_right "output \x27" o.name)))
    · exact strContains_append_left _
        (by decide : strContains "\x27 not found after step completed" "not found")

/-- C5 counterexample: an output whose tmp path equals its final path.  The
tmp file exists, promotion succeeds (the rename is onto the same path), yet
afterwards the tmp path still exists — refuting the claim's "after which
the tmp path no longer exists". -/
theorem c5_counterexample :
    (promote_outputs [⟨"o", "a.txt", "a.txt"⟩] "ws" [("ws/a.txt", "X")]).2 = none ∧
    alLookup (promote_outputs [⟨"o", "a.txt", "a.txt"⟩] "ws" [("ws/a.txt", "X")]).1
      (pathJoin "ws" "a.txt") = some "X" := by
  exact ⟨by decide, by decide⟩

/-- C5 witness: the amended theorem applied at the spec's own concrete
vectors (`out.txt.tmp` present; `result.txt.tmp` absent). -/
theorem c5_promote_outputs_witness :
    (promote_outputs [⟨"out", "out.txt", "out.txt.tmp"⟩] "ws" [("ws/out.txt.tmp", "data")] =
       promote_outputs [] "ws"
         (alInsert (alErase [("ws/out.txt.tmp", "data")] (pathJoin "ws" "out.txt.tmp"))
           (pathJoin "ws" "out.txt") "data") ∧
     alLookup (alInsert (alErase [("ws/out.txt.tmp", "data")] (pathJoin "ws" "out.txt.tmp"))
         (pathJoin "ws" "out.txt") "data") (pathJoin "ws" "out.txt.tmp") = none ∧
     alLookup (alInsert (alErase [("ws/out.txt.tmp", "data")] (pathJoin "ws" "out.txt.tmp"))
         (pathJoin "ws" "out.txt") "data") (pathJoin "ws" "out.txt") = some "data") ∧
    (∃ e, promote_outputs [⟨"result", "result.txt", "result.txt.tmp"⟩] "ws" [] =
        ([], some e) ∧ strContains e "result" ∧ strContains e "not found") := by
  constructor
  · exact (c5_promote_outputs ⟨"out", "out.txt", "out.txt.tmp"⟩ [] "ws"
      [("ws/out.txt.tmp", "data")]).1 "data" (by decide) (by decide)
  · exact (c5_promote_outputs ⟨"result", "result.txt", "result.txt.tmp"⟩ [] "ws" []).2.1
      (by decide)

/-- C6: template resolution (`runner.rs::resolve_templates`): text in which
no file-inclusion macro matches at any position is returned unchanged; when
every referenced file is readable resolution succeeds; a resolution error
always names both the matched macro text and the resolved workspace-relative
path of a file that could not be read, and an unreadable referenced file
always causes an error; the spec's concrete vectors: a single macro is
replaced by the file contents, and multiple distinct macros each resolve
independently. -/
theorem c6_resolve_templates (input ws : String) (fs : FS) :
    ((∀ n, n < input.data.length → matchFileRef (input.data.drop n) = none) →
       resolve_templates input ws fs = .ok input) ∧
    ((∀ m ∈ findFileRefs input.data, (alLookup fs (pathJoin ws m.2)).isSome = true) →
       ∃ out, resolve_templates input ws fs = .ok out) ∧
    (∀ e, resolve_templates input ws fs = .error e →
       ∃ full p, (full, p) ∈ findFileRefs input.data ∧
         alLookup fs (pathJoin ws p) = none ∧
         strContains e full ∧ strContains e (pathJoin ws p)) ∧
    ((∃ m ∈ findFileRefs input.data, alLookup fs (pathJoin ws m.2) = none) →
       ∃ e, resolve_templates input ws fs = .error e) ∧
    resolve_templates "\x7b\x7b file:a.txt \x7d\x7d" "ws" [("ws/a.txt", "X")] = .ok "X" ∧
    resolve_templates "First: \x7b\x7b file:a.txt \x7d\x7d Second: \x7b\x7b file:b.txt \x7d\x7d"
        "ws" [("ws/a.txt", "AAA"), ("ws/b.txt", "BBB")] =
      .ok ("First: AAA Second: BBB") := by
  refine ⟨?_, ?_, ?_, ?_, rfl, rfl⟩
  · intro h
    unfold resolve_templates findFileRefs
    rw [findRefsAux_none input.data h input.data.length]
    simp [resolveGo, string_mk_data]
  · intro h
    exact resolveGo_all_readable ws fs (findFileRefs input.data) input.data h
  · intro e he
    exact resolveGo_error_names ws fs (findFileRefs input.data) input.data e he
  · intro h
    exact resolveGo_some_unreadable ws fs (findFileRefs input.data) input.data h

/-- C6 witness: the theorem applied at concrete inputs — macro-free text
passes through unchanged, and a macro referencing a missing file yields an
error naming the macro and the resolved path. -/
theorem c6_resolve_templates_witness :
    resolve_templates "No templates here, just regular text." "ws" [] =
      .ok "No templates here, just regular text." ∧
    (∃ full p, (full, p) ∈ findFileRefs "\x7b\x7b file:missing.txt \x7d\x7d".data ∧
       alLookup ([] : FS) (pathJoin "ws" p) = none ∧
       strContains ("template \x27\x7b\x7b file:missing.txt \x7d\x7d\x27: failed to read " ++
         "\x27ws/missing.txt\x27: No such file or directory (os error 2)") full ∧
       strContains ("template \x27\x7b\x7b file:missing.txt \x7d\x7d\x27: failed to read " ++
         "\x27ws/missing.txt\x27: No such file or directory (os error 2)") (pathJoin "ws" p)) := by
  constructor
  · exact (c6_resolve_templates "No templates here, just regular text." "ws" []).1 (by decide)
  · exact (c6_resolve_templates "\x7b\x7b file:missing.txt \x7d\x7d" "ws" []).2.2.1 _ (by rfl)

/-- C7: an id-set mismatch between the pipeline definition and the persisted
state makes the tick abort with a hard error mentioning both "mismatch" and
the `reset` operation, and the tick changes no status (the returned state is
the input state, untouched). -/
theorem c7_state_mismatch_hard_error (pname : String) (steps : List Step) (st : StateMap)
    (cfg : Nat) (hm : idSetEq steps st = false) :
    ∃ e, acquire_ticket pname steps st cfg = .error e ∧
      strContains e "mismatch" ∧ strContains e "reset" ∧
      ∀ oc ws fs, run_pipeline_tick pname steps st cfg oc ws fs = (.error e, st, fs) := by
  have ha : acquire_ticket pname steps st cfg =
      .error ("[" ++ pname ++
        "] state file mismatch — steps in pipeline.yaml don\x27t match state.json. " ++
        "Consider resetting the pipeline with \x60cronclaw reset " ++ pname ++ "\x60.") := by
    simp [acquire_ticket, hm]
  refine ⟨_, ha, ?_, ?_, ?_⟩
  · exact strContains_append_right _ (strContains_append_right _ (strContains_append_right _
      (strContains_append_left _
        (by decide :
          strContains "] state file mismatch — steps in pipeline.yaml don\x27t match state.json. "
            "mismatch"))))
  · exact strContains_append_right _ (strContains_append_right _
      (strContains_append_left _
        (by decide :
          strContains "Consider resetting the pipeline with \x60cronclaw reset " "reset")))
  · intro oc ws fs
    simp [run_pipeline_tick, ha]

/-- C7 witness: the theorem applied to a concrete drifted pipeline (the
definition has step `s1`, the state only knows `other`). -/
theorem c7_state_mismatch_witness :
    ∃ e, acquire_ticket "demo"
        [⟨"s1", .bash, none, none, .terminal, .terminal, some "echo a", none, []⟩]
        [("other", StepStatus.pending)] 300 = .error e ∧
      strContains e "mismatch" ∧ strContains e "reset" ∧
      ∀ oc ws fs, run_pipeline_tick "demo"
          [⟨"s1", .bash, none, none, .terminal, .terminal, some "echo a", none, []⟩]
          [("other", StepStatus.pending)] 300 oc ws fs =
        (.error e, [("other", StepStatus.pending)], fs) :=
  c7_state_mismatch_hard_error "demo"
    [⟨"s1", .bash, none, none, .terminal, .terminal, some "echo a", none, []⟩]
    [("other", StepStatus.pending)] 300 (by decide)

/-- C8: validation of a schema-parsed pipeline document
(`pipeline.rs::parse`) fails exactly when some Bash-kind step lacks its
command field or some Agent-kind step lacks its agent identifier or prompt
field; the error names an offending step's id; an empty step list is valid.
(The validation is a pure function of the parsed document — the model takes
no filesystem.) -/
theorem c8_parse_validation (steps : List Step) :
    ((∃ e, parse_validate steps = .error e) ↔ (∃ s ∈ steps, offendingStep s)) ∧
    (∀ e, parse_validate steps = .error e →
       ∃ s ∈ steps, offendingStep s ∧ strContains e s.id) ∧
    parse_validate ([] : List Step) = .ok () := by
  refine ⟨?_, ?_, rfl⟩
  · constructor
    · intro ⟨e, he⟩
      induction steps with
      | nil => simp [parse_validate] at he
      | cons s rest ih =>
        rcases hk : s.step_type with _ | _
        · by_cases hb : s.agent.isNone || s.prompt.isNone
          · refine ⟨s, by simp, Or.inr ⟨hk, ?_⟩⟩
            rcases Bool.or_eq_true_iff.mp hb with h1 | h1
            · exact Or.inl (Option.isNone_iff_eq_none.mp h1)
            · exact Or.inr (Option.isNone_iff_eq_none.mp h1)
          · simp only [parse_validate, hk, hb] at he
            obtain ⟨x, hx, hox⟩ := ih he
            exact ⟨x, by simp [hx], hox⟩
        · by_cases hb : s.bash.isNone
          · exact ⟨s, by simp, Or.inl ⟨hk, Option.isNone_iff_eq_none.mp hb⟩⟩
          · simp only [parse_validate, hk, hb] at he
            obtain ⟨x, hx, hox⟩ := ih he
            exact ⟨x, by simp [hx], hox⟩
    · intro ⟨s, hs, hos⟩
      induction steps with
      | nil => simp at hs
      | cons s0 rest ih =>
        rcases List.mem_cons.mp hs with heq | hmem
        · subst heq
          rcases hos with ⟨hk, hb⟩ | ⟨hk, hb⟩
          · exact ⟨"step \x27" ++ s.id ++ "\x27: type is bash but \x27bash\x27 field is missing",
              by simp [parse_validate, hk, hb]⟩
          · rcases hb with hb | hb
            · exact ⟨"step \x27" ++ s.id ++
                "\x27: type is agent but \x27agent\x27 or \x27prompt\x27 field is missing",
                by simp [parse_validate, hk, hb]⟩
            · rcases ha : s.agent with _ | av
              · exact ⟨"step \x27" ++ s.id ++
                  "\x27: type is agent but \x27agent\x27 or \x27prompt\x27 field is missing",
                  by simp [parse_validate, hk, ha]⟩
              · exact ⟨"step \x27" ++ s.id ++
                  "\x27: type is agent but \x27agent\x27 or \x27prompt\x27 field is missing",
                  by simp [parse_validate, hk, ha, hb]⟩
        · rcases hk : s0.step_type with _ | _
          · by_cases hb : s0.agent.isNone || s0.prompt.isNone
            · exact ⟨"step \x27" ++ s0.id ++
                "\x27: type is agent but \x27agent\x27 or \x27prompt\x27 field is missing",
                by simp [parse_validate, hk, hb]⟩
            · obtain ⟨e, he⟩ := ih hmem
              exact ⟨e, by simp only [parse_validate, hk, hb]; exact he⟩
          · by_cases hb : s0.bash.isNone
            · exact ⟨"step \x27" ++ s0.id ++
                "\x27: type is bash but \x27bash\x27 field is missing",
                by simp [parse_validate, hk, hb]⟩
            · obtain ⟨e, he⟩ := ih hmem
              exact ⟨e, by simp only [parse_validate, hk, hb]; exact he⟩
  · intro e he
    induction steps with
    | nil => simp [parse_validate] at he
    | cons s rest ih =>
      rcases hk : s.step_type with _ | _
      · by_cases hb : s.agent.isNone || s.prompt.isNone
        · simp only [parse_validate, hk, hb] at he
          injection he with he'
          refine ⟨s, by simp, Or.inr ⟨hk, ?_⟩, ?_⟩
          · rcases Bool.or_eq_true_iff.mp hb with h1 | h1
            · exact Or.inl (Option.isNone_iff_eq_none.mp h1)
            · exact Or.inr (Option.isNone_iff_eq_none.mp h1)
          · rw [← he']
            exact strContains_append_right _
              (strContains_append_self_right "step \x27" s.id)
        · simp only [parse_validate, hk, hb] at he
          obtain ⟨x, hx, hox, hcx⟩ := ih he
          exact ⟨x, by simp [hx], hox, hcx⟩
      · by_cases hb : s.bash.isNone
        · simp only [parse_validate, hk, hb] at he
          injection he with he'
          refine ⟨s, by simp, Or.inl ⟨hk, Option.isNone_iff_eq_none.mp hb⟩, ?_⟩
          rw [← he']
          exact strContains_append_right _
            (strContains_append_self_right "step \x27" s.id)
        · simp only [parse_validate, hk, hb] at he
          obtain ⟨x, hx, hox, hcx⟩ := ih he
          exact ⟨x, by simp [hx], hox, hcx⟩

/-- C8 witness: the theorem applied to a concrete document — a bash step
missing its command is rejected with an error naming its id, and the
equivalence instantiated at that document. -/
theorem c8_parse_validation_witness :
    (∃ s ∈ [(⟨"b1", StepType.bash, none, none, .terminal, .terminal, none, none, []⟩ : Step)],
       offendingStep s ∧
         strContains ("step \x27b1\x27: type is bash but \x27bash\x27 field is missing") s.id) ∧
    (∃ e, parse_validate
        [(⟨"ok", StepType.bash, none, none, .terminal, .terminal, some "echo", none, []⟩ : Step),
         (⟨"a1", StepType.agent, none, some "p", .terminal, .terminal, none, none, []⟩ : Step)] =
      .error e) := by
  constructor
  · exact (c8_parse_validation
      [⟨"b1", StepType.bash, none, none, .terminal, .terminal, none, none, []⟩]).2.1 _ rfl
  · exact (c8_parse_validation
      [⟨"ok", StepType.bash, none, none, .terminal, .terminal, some "echo", none, []⟩,
       ⟨"a1", StepType.agent, none, some "p", .terminal, .terminal, none, none, []⟩]).1.mpr
      ⟨⟨"a1", StepType.agent, none, some "p", .terminal, .terminal, none, none, []⟩,
       by simp, Or.inr ⟨rfl, Or.inl rfl⟩⟩

/-- C3 (amended): for every tick of one pipeline whose state matches its
definition: if every step is `Completed` the tick is a no-op; if the first
non-`Completed` step in definition order is `Running` or `Failed` the tick
changes no status and produces no error; otherwise the first `Pending` step
is claimed — marked `Running` and persisted before execution (all other
entries unchanged) — and after execution it is persisted `Completed` (when
execution and output promotion both succeed) or `Failed` (when execution
fails); if execution succeeds but promotion fails it remains `Running`
(see the counterexample for the original claim's "persisted as Completed or
Failed after execution"). -/
theorem c3_tick_selection (pname : String) (steps : List Step) (st : StateMap)
    (cfg : Nat) (hm : idSetEq steps st = true) :
    ((∀ s ∈ steps, alLookup st s.id = some .completed) →
       acquire_ticket pname steps st cfg = .ok none ∧
       ∀ oc ws fs, run_pipeline_tick pname steps st cfg oc ws fs = (.ok (), st, fs)) ∧
    (∀ done s rest, steps = done ++ s :: rest →
       (∀ d ∈ done, alLookup st d.id = some .completed) →
       (alLookup st s.id = some .running ∨ alLookup st s.id = some .failed) →
       acquire_ticket pname steps st cfg = .ok none ∧
       ∀ oc ws fs, run_pipeline_tick pname steps st cfg oc ws fs = (.ok (), st, fs)) ∧
    (∀ done s rest, steps = done ++ s :: rest →
       (∀ d ∈ done, alLookup st d.id = some .completed) →
       alLookup st s.id = some .pending →
       acquire_ticket pname steps st cfg =
         .ok (some ⟨done.length, s.id, s.timeout.getD cfg, alInsert st s.id .running⟩) ∧
       alLookup (alInsert st s.id .running) s.id = some .running ∧
       (∀ i, i ≠ s.id → alLookup (alInsert st s.id .running) i = alLookup st i) ∧
       (∀ oc ws fs,
         (∀ fs2, execute_step s ws fs oc = .ok () →
            promote_outputs s.outputs ws fs = (fs2, none) →
            run_pipeline_tick pname steps st cfg oc ws fs =
              (.ok (), alInsert (alInsert st s.id .running) s.id .completed, fs2)) ∧
         (∀ m, execute_step s ws fs oc = .error m →
            run_pipeline_tick pname steps st cfg oc ws fs =
              (.error ("[" ++ pname ++ "] step \x27" ++ s.id ++ "\x27 failed: " ++ m),
               alInsert (alInsert st s.id .running) s.id .failed, fs)) ∧
         (∀ fs2 e, execute_step s ws fs oc = .ok () →
            promote_outputs s.outputs ws fs = (fs2, some e) →
            run_pipeline_tick pname steps st cfg oc ws fs =
              (.error e, alInsert st s.id .running, fs2)))) := by
  have hacq0 : acquire_ticket pname steps st cfg = .ok (acquireScan st cfg 0 steps) := by
    simp [acquire_ticket, hm]
  refine ⟨?_, ?_, ?_⟩
  · intro hall
    have h1 := acquireScan_skip st cfg steps hall 0 []
    rw [List.append_nil] at h1
    have hscan : acquireScan st cfg 0 steps = none := by rw [h1]; rfl
    refine ⟨by rw [hacq0, hscan], ?_⟩
    intro oc ws fs
    simp [run_pipeline_tick, hacq0, hscan]
  · intro done s rest hsteps hdone hrf
    subst hsteps
    have h1 := acquireScan_skip st cfg done hdone 0 (s :: rest)
    have hscan : acquireScan st cfg 0 (done ++ s :: rest) = none := by
      rw [h1]
      rcases hrf with h | h <;> simp [acquireScan, h]
    refine ⟨by rw [hacq0, hscan], ?_⟩
    intro oc ws fs
    simp [run_pipeline_tick, hacq0, hscan]
  · intro done s rest hsteps hdone hp
    subst hsteps
    have h1 := acquireScan_skip st cfg done hdone 0 (s :: rest)
    have hscan : acquireScan st cfg 0 (done ++ s :: rest) =
        some ⟨done.length, s.id, s.timeout.getD cfg, alInsert st s.id .running⟩ := by
      rw [h1]
      simp [acquireScan, hp]
    have hacq : acquire_ticket pname (done ++ s :: rest) st cfg =
        .ok (some ⟨done.length, s.id, s.timeout.getD cfg, alInsert st s.id .running⟩) := by
      rw [hacq0, hscan]
    have hidx : (done ++ s :: rest)[done.length]? = some s := getElem?_append_len done s rest
    refine ⟨hacq, alLookup_alInsert_self _ _ _,
      fun i hi => alLookup_alInsert_ne _ _ _ _ hi, ?_⟩
    intro oc ws fs
    refine ⟨?_, ?_, ?_⟩
    · intro fs2 hex hpr
      simp [run_pipeline_tick, hacq, hidx, hex, hpr]
    · intro m hex
      simp [run_pipeline_tick, hacq, hidx, hex]
    · intro fs2 e hex hpr
      simp [run_pipeline_tick, hacq, hidx, hex, hpr]

/-- C3 counterexample: a single pending bash step that declares an output
whose tmp file is never created.  Execution succeeds, promotion fails, and
the step's persisted status at the end of the tick is `Running` — neither
`Completed` nor `Failed` is persisted after execution, refuting the original
claim's final clause. -/
theorem c3_counterexample :
    (run_pipeline_tick "p"
        [⟨"s1", .bash, none, none, .terminal, .terminal, some "true", none,
          [⟨"o", "f.txt", "f.txt.tmp"⟩]⟩]
        [("s1", StepStatus.pending)] 300 .success "ws" []).2.1 =
      [("s1", StepStatus.running)] ∧
    ¬ (alLookup (run_pipeline_tick "p"
          [⟨"s1", .bash, none, none, .terminal, .terminal, some "true", none,
            [⟨"o", "f.txt", "f.txt.tmp"⟩]⟩]
          [("s1", StepStatus.pending)] 300 .success "ws" []).2.1 "s1" =
            some StepStatus.completed ∨
       alLookup (run_pipeline_tick "p"
          [⟨"s1", .bash, none, none, .terminal, .terminal, some "true", none,
            [⟨"o", "f.txt", "f.txt.tmp"⟩]⟩]
          [("s1", StepStatus.pending)] 300 .success "ws" []).2.1 "s1" =
            some StepStatus.failed) := by
  exact ⟨rfl, by decide⟩

/-- C3 witness: the amended theorem applied to a concrete one-step pipeline
with a pending step — the tick claims it, persists `Running`, executes, and
persists `Completed`. -/
theorem c3_tick_selection_witness :
    acquire_ticket "p"
        [⟨"s1", .bash, none, none, .terminal, .terminal, some "echo hi", none, []⟩]
        [("s1", StepStatus.pending)] 300 =
      .ok (some ⟨0, "s1", 300, alInsert [("s1", StepStatus.pending)] "s1" .running⟩) ∧
    run_pipeline_tick "p"
        [⟨"s1", .bash, none, none, .terminal, .terminal, some "echo hi", none, []⟩]
        [("s1", StepStatus.pending)] 300 .success "ws" [] =
      (.ok (), [("s1", StepStatus.completed)], []) := by
  have h := (c3_tick_selection "p"
      [⟨"s1", .bash, none, none, .terminal, .terminal, some "echo hi", none, []⟩]
      [("s1", StepStatus.pending)] 300 (by decide)).2.2 []
      ⟨"s1", .bash, none, none, .terminal, .terminal, some "echo hi", none, []⟩ [] rfl
      (by simp) (by decide)
  exact ⟨h.1, (h.2.2.2 .success "ws" []).1 [] rfl rfl⟩

/-- C4: when the claimed step's process exits successfully, output promotion
runs strictly between executor success and the `Completed` persist: the
`Completed` state is persisted together with the promoted filesystem; when
promotion fails, the persisted state at the end of the tick is exactly the
ticket state (the claimed step still `Running` — neither `Completed` nor
`Failed` is written) and the promotion error is propagated verbatim; and a
`Completed` status for the claimed step is only ever observed when promotion
returned no error. -/
theorem c4_promotion_before_completed (pname : String) (steps : List Step) (st : StateMap)
    (cfg : Nat) (ws : String) (t : Ticket) (step : Step) (oc : ExecOutcome) (fs : FS)
    (ha : acquire_ticket pname steps st cfg = .ok (some t))
    (hs : steps[t.step_index]? = some step)
    (he : execute_step step ws fs oc = .ok ()) :
    (∀ fs2, promote_outputs step.outputs ws fs = (fs2, none) →
       run_pipeline_tick pname steps st cfg oc ws fs =
         (.ok (), alInsert t.state t.step_id .completed, fs2)) ∧
    (∀ fs2 e, promote_outputs step.outputs ws fs = (fs2, some e) →
       run_pipeline_tick pname steps st cfg oc ws fs = (.error e, t.state, fs2) ∧
       alLookup t.state t.step_id = some .running) ∧
    (alLookup (run_pipeline_tick pname steps st cfg oc ws fs).2.1 t.step_id =
        some .completed →
      (promote_outputs step.outputs ws fs).2 = none) := by
  have hrun : alLookup t.state t.step_id = some .running := by
    by_cases hm : idSetEq steps st
    · rw [acquire_ticket, if_pos hm] at ha
      injection ha with ha'
      obtain ⟨hst, _⟩ := acquireScan_some st cfg steps 0 t ha'
      rw [hst]
      exact alLookup_alInsert_self _ _ _
    · rw [acquire_ticket, if_neg hm] at ha
      cases ha
  refine ⟨?_, ?_, ?_⟩
  · intro fs2 hpr
    simp [run_pipeline_tick, ha, hs, he, hpr]
  · intro fs2 e hpr
    exact ⟨by simp [run_pipeline_tick, ha, hs, he, hpr], hrun⟩
  · intro hc
    rcases hpr : promote_outputs step.outputs ws fs with ⟨fs2, _ | e⟩
    · rfl
    · exfalso
      have htick : run_pipeline_tick pname steps st cfg oc ws fs = (.error e, t.state, fs2) := by
        simp [run_pipeline_tick, ha, hs, he, hpr]
      rw [htick] at hc
      simp only at hc
      rw [hrun] at hc
      cases hc

/-- C4 witness: the theorem applied to a concrete pipeline whose step
declares one output with the tmp file present — the tick completes the step
and the final filesystem holds the promoted artifact. -/
theorem c4_promotion_before_completed_witness :
    run_pipeline_tick "p"
        [⟨"s1", .bash, none, none, .terminal, .terminal, some "make", none,
          [⟨"out", "out.txt", "out.txt.tmp"⟩]⟩]
        [("s1", StepStatus.pending)] 300 .success "ws" [("ws/out.txt.tmp", "data")] =
      (.ok (), [("s1", StepStatus.completed)], [("ws/out.txt", "data")]) := by
  have h := c4_promotion_before_completed "p"
      [⟨"s1", .bash, none, none, .terminal, .terminal, some "make", none,
        [⟨"out", "out.txt", "out.txt.tmp"⟩]⟩]
      [("s1", StepStatus.pending)] 300 "ws"
      ⟨0, "s1", 300, alInsert [("s1", StepStatus.pending)] "s1" .running⟩
      ⟨"s1", .bash, none, none, .terminal, .terminal, some "make", none,
        [⟨"out", "out.txt", "out.txt.tmp"⟩]⟩
      .success [("ws/out.txt.tmp", "data")] rfl rfl rfl
  exact h.1 [("ws/out.txt", "data")] rfl

end Cronclaw
